import Mathlib

/-!
A verification development for the anki-mcp vocabulary manager.

The TypeScript source is shallowly embedded in Lean:

* Strings are Lean `String`s, operated on through their character lists
  (`String.data`); JavaScript's `toLowerCase`, `includes`, `startsWith` and
  `split(/\s+/)` are modelled on character lists (the data handled by the
  program is ASCII, where both semantics agree).
* `new Date(s)` timestamps are modelled by their parsed numeric value
  (`Int`, epoch milliseconds); the source only ever compares them.
* Stateful services become explicit state passing (`AudioState`) or oracle
  functions describing the outcome of each external call
  (`Nat → FetchResponse α` for the AnkiConnect transport, an
  entry-level oracle for the per-word downstream pipeline).
* `crypto.createHash("md5")...slice(0, 8)` (`getStableHash`) is an opaque
  pure function of the text; it is passed as a parameter, since every
  property of interest depends only on it being a pure function.
* JavaScript's stable `Array.prototype.sort` is modelled by
  `List.insertionSort`, which is stable; for a total preorder comparator
  the stable sort result is unique, so the two agree.
-/

/-- JS `String.prototype.toLowerCase()` restricted to ASCII, matching the
character data this program validates and stores. -/
def toLowerStr (s : String) : String := ⟨s.data.map Char.toLower⟩

/-- JS `haystack.includes(needle)`: `needle` occurs as a contiguous
substring of `haystack`. -/
def strIncludes (s sub : String) : Bool := decide (sub.data <:+: s.data)

/-- JS `s.startsWith(p)`. -/
def jsStartsWith (s p : String) : Bool := decide (p.data <+: s.data)

/-- The whitespace characters matched by the JS regex class `\s`
(ASCII part; the program's validated data is ASCII). -/
def isJsWhitespace (c : Char) : Bool :=
  c == ' ' || c == '\t' || c == '\n' || c == '\r' || c == '\x0b' || c == '\x0c'

/-- Split a character list at every character satisfying `p`
(JS `split` keeps empty pieces; `split(/\s+/)` merges separator runs, but
the two differ only by empty pieces, which never compare equal to a
non-empty query). -/
def splitOnPred (p : Char → Bool) : List Char → List Char → List (List Char)
  | acc, [] => [acc.reverse]
  | acc, c :: cs =>
    if p c then acc.reverse :: splitOnPred p [] cs else splitOnPred p (c :: acc) cs

/-- One row of the vocabulary ledger (`WordData` in `src/utils.ts`).
The optional `example` field of the source is named `exampleText` here
because `example` is a Lean keyword.  `dateAdded` is the parsed timestamp. -/
structure WordData where
  word : String
  definition : String
  exampleText : Option String := none
  notes : Option String := none
  tags : Option (List String) := none
  dateAdded : Int
deriving DecidableEq

/-- The case-insensitive key used for deduplication:
`curr.word.toLowerCase()` in `deduplicateWordData`. -/
def wordKey (e : WordData) : String := toLowerStr e.word

/-- One step of the `reduce` in `deduplicateWordData` (src/utils.ts:27-39):
the accumulator is the JS object `acc`, modelled as an association list
in first-insertion order (how `Object.values` enumerates string keys);
an existing entry is replaced in place exactly when the incoming entry's
`dateAdded` is strictly later. -/
def dedupStep (acc : List (String × WordData)) (curr : WordData) :
    List (String × WordData) :=
  let key := toLowerStr curr.word
  match acc.lookup key with
  | some existing =>
    if existing.dateAdded < curr.dateAdded then
      acc.map (fun p => if p.1 = key then (key, curr) else p)
    else acc
  | none => acc ++ [(key, curr)]

/-- `deduplicateWordData` (src/utils.ts:26-44): fold the rows into a
key-indexed map with last-write-wins on strictly later `dateAdded`, then
sort the surviving values by `dateAdded` descending (the source's stable
`sort((a, b) => b - a)` comparator). -/
def deduplicateWordData (data : List WordData) : List WordData :=
  List.insertionSort (fun a b => b.dateAdded ≤ a.dateAdded)
    ((data.foldl dedupStep []).map Prod.snd)

/-- Specification-side description of the entry that survives
deduplication for a key: fold the entries having that key, keeping the
incumbent unless the newcomer is strictly later (so the first entry
achieving the maximal timestamp wins). -/
def pickLater (best : Option WordData) (e : WordData) : Option WordData :=
  match best with
  | none => some e
  | some b => if b.dateAdded < e.dateAdded then some e else some b

/-- The surviving entry for key `k` among `data`, per `pickLater`. -/
def bestEntry (k : String) (data : List WordData) : Option WordData :=
  (data.filter (fun e => wordKey e == k)).foldl pickLater none

/-- `formatWordForFilename` (src/utils.ts:47-49): replace every character
outside `[a-zA-Z0-9]` by `_`, then lowercase. -/
def formatWordForFilename (word : String) : String :=
  toLowerStr ⟨word.data.map (fun c => if c.isAlphanum then c else '_')⟩

/-- The audio filename computed at the top of
`AudioService.createAudioFile` (part_003:24-26); `getStableHash` is the
source's 8-hex-digit md5 of the text, abstracted as a pure function. -/
def audioFilename (getStableHash : String → String)
    (word audioType text : String) : String :=
  formatWordForFilename word ++ "-" ++ audioType ++ "-" ++ getStableHash text ++ ".mp3"

/-- Characters allowed by the word regex `/^[a-zA-Z\s\-']+$/`. -/
def isWordChar (c : Char) : Bool :=
  c.isAlpha || isJsWhitespace c || c == '-' || c == '\''

/-- Characters allowed by the definition/example/notes regex
`/^[a-zA-Z0-9\s.,!?;:'"()\-\[\]]*$/`. -/
def isEnglishTextChar (c : Char) : Bool :=
  c.isAlphanum || isJsWhitespace c || c == '.' || c == ',' || c == '!' ||
  c == '?' || c == ';' || c == ':' || c == '\'' || c == '"' || c == '(' ||
  c == ')' || c == '-' || c == '[' || c == ']'

/-- Characters allowed by the tag regex `/^[a-zA-Z0-9\-_]+$/`. -/
def isTagChar (c : Char) : Bool :=
  c.isAlphanum || c == '-' || c == '_'

/-- The payload of `VocabularyService.addWords`' input entries: `WordData`
without the `dateAdded` the service assigns. -/
structure WordInput where
  word : String
  definition : String
  exampleText : Option String := none
  notes : Option String := none
  tags : Option (List String) := none
deriving DecidableEq

/-- The result record of `validateWordData`. -/
structure ValidationResult where
  isValid : Bool
  error : Option String := none
deriving DecidableEq

/-- `validateWordData` (src/utils.ts:57-109), checking the four regexes in
source order; optional fields are checked only when JS-truthy (present and
non-empty), and the first offending tag is the one named. -/
def validateWordData (wordData : WordInput) : ValidationResult :=
  if !(wordData.word.data ≠ [] && wordData.word.data.all isWordChar) then
    { isValid := false
      error := some ("Word \"" ++ wordData.word ++
        "\" must contain only English letters, spaces, hyphens, or apostrophes") }
  else if !(wordData.definition.data.all isEnglishTextChar) then
    { isValid := false
      error := some ("Definition for \"" ++ wordData.word ++ "\" must be in English") }
  else if (match wordData.exampleText with
           | some ex => ex ≠ "" && !(ex.data.all isEnglishTextChar)
           | none => false) then
    { isValid := false
      error := some ("Example for \"" ++ wordData.word ++ "\" must be in English") }
  else if (match wordData.notes with
           | some n => n ≠ "" && !(n.data.all isEnglishTextChar)
           | none => false) then
    { isValid := false
      error := some ("Notes for \"" ++ wordData.word ++ "\" must be in English") }
  else
    match wordData.tags with
    | some ts =>
      match ts.find? (fun tag => !(tag.data ≠ [] && tag.data.all isTagChar)) with
      | some tag =>
        { isValid := false
          error := some ("Tag \"" ++ tag ++ "\" for word \"" ++ wordData.word ++
            "\" must contain only English letters, numbers, hyphens, or underscores") }
      | none => { isValid := true }
    | none => { isValid := true }

/-- The loop body of `chunkArray`, structurally recursive on a fuel
bounding the number of loop iterations (the list's length suffices, since
each iteration drops at least one element when `size > 0`). -/
def chunkArrayGo {α : Type} (size : Nat) : Nat → List α → List (List α)
  | _, [] => []
  | 0, _ :: _ => []
  | fuel + 1, a :: as => ((a :: as).take size) :: chunkArrayGo size fuel ((a :: as).drop size)

/-- `chunkArray` (src/utils.ts:117-123): slice the array into consecutive
chunks of `size`.  The source loop does not terminate for `size = 0` (the
service only ever passes 3); that unused case is mapped to `[]`. -/
def chunkArray {α : Type} (array : List α) (size : Nat) : List (List α) :=
  match size with
  | 0 => []
  | s + 1 => chunkArrayGo (s + 1) array.length array

/-- Map with the element's position, used to give each batch entry its own
completion timestamp. -/
def mapIdx {α β : Type} (f : Nat → α → β) : Nat → List α → List β
  | _, [] => []
  | i, a :: as => f i a :: mapIdx f (i + 1) as

/-- State of the audio subsystem as `AudioService.createAudioFile` sees
it: the local cache directory and the AnkiConnect media collection, each a
name-to-bytes association (bytes abstracted as strings), plus counters for
the observable external calls (text-to-speech synthesis requests and
`storeMediaFile` requests). -/
structure AudioState where
  localFiles : List (String × String)
  ankiMedia : List (String × String)
  ttsCalls : Nat
  storeCalls : Nat
deriving DecidableEq

/-- `AudioService.createAudioFile` (part_003:23-76).  `tts` is the
`openai.audio.speech.create` collaborator (text to bytes), `getStableHash`
the content hash.  The inner `try` checks local presence (`fs.access`);
when present it consults `getMediaFilesNames` and pushes the local bytes
via `storeMediaFile` only if the name is missing there; when absent it
synthesizes once, writes the file locally, and pushes it to Anki. -/
def createAudioFile (tts getStableHash : String → String) (s : AudioState)
    (text word audioType : String) : String × AudioState :=
  let audioFilename :=
    formatWordForFilename word ++ "-" ++ audioType ++ "-" ++ getStableHash text ++ ".mp3"
  match s.localFiles.lookup audioFilename with
  | some bytes =>
    if audioFilename ∈ s.ankiMedia.map Prod.fst then (audioFilename, s)
    else (audioFilename,
      { s with ankiMedia := s.ankiMedia ++ [(audioFilename, bytes)],
               storeCalls := s.storeCalls + 1 })
  | none =>
    let buffer := tts text
    (audioFilename,
      { localFiles := s.localFiles ++ [(audioFilename, buffer)],
        ankiMedia := s.ankiMedia ++ [(audioFilename, buffer)],
        ttsCalls := s.ttsCalls + 1,
        storeCalls := s.storeCalls + 1 })

/-- What one `fetch` of `invokeAnkiConnect` can come back with: a
transport failure, a non-2xx HTTP response, or a parsed response envelope
`{result, error}`. -/
inductive FetchResponse (α : Type) where
  | netError (msg : String)
  | httpError (status : Nat) (statusText : String)
  | envelope (error : Option String) (result : α)

/-- The body of one attempt of `invokeAnkiConnect` (part_002:1591-1610):
a transport failure throws; `!response.ok` throws an `HTTP error:`;
a JS-truthy `result.error` throws an `AnkiConnect error:` (an absent or
empty-string `error` is falsy, hence success); otherwise the attempt
returns `result.result` — even when that result is empty. -/
def attemptResult {α : Type} : FetchResponse α → Except String α
  | .netError m => .error m
  | .httpError status statusText =>
    .error ("HTTP error: " ++ toString status ++ " " ++ statusText)
  | .envelope e r =>
    match e with
    | some msg => if msg = "" then .ok r else .error ("AnkiConnect error: " ++ msg)
    | none => .ok r

/-- The observable outcome of `invokeAnkiConnect`: the value returned or
the error finally thrown, the number of attempts performed, and the
backoff delays (in ms) slept between consecutive attempts. -/
structure InvokeOutcome (α : Type) where
  result : Except String α
  attempts : Nat
  delays : List Nat

/-- The retry loop of `invokeAnkiConnect` (part_002:1581-1626), with
`responses i` the outcome of attempt number `i` (0-based).  `fuel` is
`retries + 1 - attempt`, the number of attempts still allowed; the loop
ends by returning the successful result, or, once `attempt = retries`
fails, by throwing `lastError`, which at that point is exactly the last
attempt's error.  A failed attempt with `attempt < retries` sleeps
`2 ^ attempt * initialRetryDelay` ms. -/
def invokeGo {α : Type} (responses : Nat → FetchResponse α)
    (initialRetryDelay retries attempt : Nat) : Nat → InvokeOutcome α
  | 0 => ⟨.error "", 0, []⟩
  | fuel + 1 =>
    match attemptResult (responses attempt) with
    | .ok v => ⟨.ok v, 1, []⟩
    | .error e =>
      if attempt < retries then
        let rest := invokeGo responses initialRetryDelay retries (attempt + 1) fuel
        ⟨rest.result, rest.attempts + 1, (2 ^ attempt * initialRetryDelay) :: rest.delays⟩
      else ⟨.error e, 1, []⟩

/-- `AnkiService.invokeAnkiConnect` (part_002:1578-1627) with the
constructor-configured `maxRetries` and `initialRetryDelay`
(part_002:1564-1576). -/
def invokeAnkiConnect {α : Type} (responses : Nat → FetchResponse α)
    (maxRetries initialRetryDelay : Nat) : InvokeOutcome α :=
  invokeGo responses initialRetryDelay maxRetries 0 (maxRetries + 1)

/-- How one entry of an `addWords` batch resolves (part_002 has a legacy
copy of the same workflow; the embedding follows
src/services/vocabulary-service.ts:77-122). -/
inductive EntryOutcome where
  | success (data : WordData)
  | failure (word : String) (error : String)
deriving DecidableEq

/-- One element of `results.failed`. -/
structure FailedWord where
  word : String
  error : String
deriving DecidableEq

/-- Build the `WordData` persisted for a successful entry:
`{...wordData, dateAdded: new Date().toISOString()}`
(vocabulary-service.ts:107-110). -/
def toWordData (w : WordInput) (t : Int) : WordData :=
  ⟨w.word, w.definition, w.exampleText, w.notes, w.tags, t⟩

/-- Forget the assigned timestamp again. -/
def toInput (d : WordData) : WordInput :=
  ⟨d.word, d.definition, d.exampleText, d.notes, d.tags⟩

/-- The per-entry workflow of `addWords` (vocabulary-service.ts:77-122):
validation failure throws (caught as this entry's failure); otherwise the
audio-synthesis and `addNote` pipeline runs, abstracted by the oracle
`downstream` (`none` = every downstream call succeeded, `some e` = the
first downstream failure's message); on success the entry is staged with
its completion timestamp `now`. -/
def processOneWord (downstream : WordInput → Option String) (now : Int)
    (wordData : WordInput) : EntryOutcome :=
  let validation := validateWordData wordData
  if validation.isValid = false then
    .failure wordData.word (validation.error.getD "")
  else
    match downstream wordData with
    | some err => .failure wordData.word err
    | none => .success (toWordData wordData now)

/-- The batched processing loop of `addWords`
(vocabulary-service.ts:74-134): the input entries, paired with their
positions, are cut into chunks of `batchSize = 3`; each chunk is awaited
as one `Promise.all`, which preserves order, and the chunk results are
pushed in order — so the outcomes, concatenated, follow input order.
`nowFn i` is the timestamp at which entry `i` completes. -/
def runBatches (downstream : WordInput → Option String) (nowFn : Nat → Int)
    (words : List WordInput) : List EntryOutcome :=
  ((chunkArray (mapIdx (fun i w => (i, w)) 0 words) 3).map
    (fun batch => batch.map (fun p => processOneWord downstream (nowFn p.1) p.2))).flatten

/-- The `results` record accumulated by the `forEach` at
vocabulary-service.ts:127-133. -/
structure AddWordsResult where
  success : List WordData
  failed : List FailedWord
deriving DecidableEq

/-- Collect outcomes into `results.success` / `results.failed`,
each in outcome order. -/
def collectResults (outcomes : List EntryOutcome) : AddWordsResult :=
  { success := outcomes.filterMap (fun o => match o with
      | .success d => some d
      | .failure _ _ => none)
    failed := outcomes.filterMap (fun o => match o with
      | .success _ => none
      | .failure w e => some ⟨w, e⟩) }

/-- The observable ledger-affecting events of one `addWords` call, in
program order: each entry resolving, and any write of the vocabulary
file (`writeCsvFile`, which stringifies `deduplicateWordData` of the data
it is given — vocabulary-service.ts:46-50). -/
inductive LedgerEvent where
  | entryResolved (outcome : EntryOutcome)
  | write (content : List WordData)
deriving DecidableEq

/-- `VocabularyService.addWords` (vocabulary-service.ts:52-146), given the
already-read (hence already-deduplicated) `existingWords`: process every
entry in batches, then — only if at least one entry succeeded — rewrite
the vocabulary file once with the deduplicated merge
`deduplicateWordData(existingWords ++ results.success)`.
Returns the result record and the ordered event trace. -/
def addWords (existingWords : List WordData) (words : List WordInput)
    (downstream : WordInput → Option String) (nowFn : Nat → Int) :
    AddWordsResult × List LedgerEvent :=
  let outcomes := runBatches downstream nowFn words
  let results := collectResults outcomes
  (results,
    outcomes.map .entryResolved ++
      (if results.success.length > 0 then
        [.write (deduplicateWordData (existingWords ++ results.success))]
      else []))

/-- The contents written by the write events of a trace. -/
def writeContents (evs : List LedgerEvent) : List (List WordData) :=
  evs.filterMap (fun e => match e with
    | .write c => some c
    | .entryResolved _ => none)

/-- The filter predicate of `VocabularyService.searchWords`
(vocabulary-service.ts:153-157): case-insensitive substring match on the
word, the definition, or — when JS-truthy, i.e. present and non-empty —
the example. -/
def matchesQuery (lowercaseQuery : String) (w : WordData) : Bool :=
  strIncludes (toLowerStr w.word) lowercaseQuery ||
  strIncludes (toLowerStr w.definition) lowercaseQuery ||
  (match w.exampleText with
   | some ex => ex ≠ "" && strIncludes (toLowerStr ex) lowercaseQuery
   | none => false)

/-- `VocabularyService.searchWords` (vocabulary-service.ts:148-162):
read and deduplicate the ledger (`readCsvFile` applies
`deduplicateWordData`), then filter.  A pure read: the function takes the
ledger contents and returns a list, performing no write. -/
def searchWords (ledger : List WordData) (query : String) : List WordData :=
  (deduplicateWordData ledger).filter (matchesQuery (toLowerStr query))

/-- The relevance score of the `search-words` tool handler
(part_002:1050-1063): the first matching rule of the five-step
else-if chain decides the score. -/
def relevanceScore (query : String) (w : WordData) : Nat :=
  let searchQuery := toLowerStr query
  if toLowerStr w.word == searchQuery then 100
  else if jsStartsWith (toLowerStr w.word) searchQuery then 80
  else if strIncludes (toLowerStr w.word) searchQuery then 60
  else if (splitOnPred isJsWhitespace [] (toLowerStr w.definition).data).any
      (fun piece => piece == searchQuery.data) then 40
  else if strIncludes (toLowerStr w.definition) searchQuery then 20
  else 0

/-- The scoring pipeline of the `search-words` tool (part_002:1042-1068):
each matched word with a corresponding Anki card (`hasCard`, the
`cardsInfo.find` join; words without a card are dropped by the
`filter(item !== null)`) is paired with its relevance score; the list is
then stably sorted by score descending and truncated to `limit`. -/
def scoreAndRank (query : String) (ws : List WordData) (limit : Nat)
    (hasCard : WordData → Bool) : List (WordData × Nat) :=
  (List.insertionSort (fun a b : WordData × Nat => b.2 ≤ a.2)
    (ws.filterMap (fun w =>
      if hasCard w then some (w, relevanceScore query w) else none))).take limit

/-- The outcome of the validate-then-downstream pipeline for one entry:
the error message reported, or `none` when the entry succeeds. -/
def entryError (downstream : WordInput → Option String) (w : WordInput) :
    Option String :=
  if (validateWordData w).isValid = false then
    some ((validateWordData w).error.getD "")
  else downstream w

/-- Well-formedness of the dedup accumulator: every pair's key is its
value's word key, and keys are pairwise distinct (a JS object holds one
value per key). -/
def accWf (acc : List (String × WordData)) : Prop :=
  (∀ p ∈ acc, p.1 = wordKey p.2) ∧ (acc.map Prod.fst).Nodup

section LookupLemmas

variable {β : Type}

theorem lookup_cons_eqn (k : String) (p : String × β) (l : List (String × β)) :
    (p :: l).lookup k = if k = p.1 then some p.2 else l.lookup k := by
  rcases p with ⟨a, b⟩
  by_cases h : k = a
  · subst h; simp [List.lookup]
  · have hb : (k == a) = false := beq_eq_false_iff_ne.mpr h
    simp [List.lookup, hb, h]

theorem lookup_append_of_none (l1 l2 : List (String × β)) (k : String)
    (h : l1.lookup k = none) : (l1 ++ l2).lookup k = l2.lookup k := by
  induction l1 with
  | nil => simp
  | cons p rest ih =>
    rw [lookup_cons_eqn] at h
    rw [List.cons_append, lookup_cons_eqn]
    by_cases hk : k = p.1
    · simp [hk] at h
    · simp only [if_neg hk] at h ⊢
      exact ih h

theorem lookup_append_of_some (l1 l2 : List (String × β)) (k : String) (b : β)
    (h : l1.lookup k = some b) : (l1 ++ l2).lookup k = some b := by
  induction l1 with
  | nil => simp [List.lookup] at h
  | cons p rest ih =>
    rw [lookup_cons_eqn] at h
    rw [List.cons_append, lookup_cons_eqn]
    by_cases hk : k = p.1
    · simpa [hk] using h
    · simp only [if_neg hk] at h ⊢
      exact ih h

theorem lookup_singleton_self (k : String) (b : β) :
    (([(k, b)] : List (String × β)).lookup k) = some b := by
  rw [lookup_cons_eqn]
  simp

theorem lookup_none_not_mem (l : List (String × β)) (k : String)
    (h : l.lookup k = none) : ∀ p ∈ l, p.1 ≠ k := by
  induction l with
  | nil => intro p hp; simp at hp
  | cons q rest ih =>
    intro p hp
    rw [lookup_cons_eqn] at h
    by_cases hk : k = q.1
    · simp [hk] at h
    · simp only [if_neg hk] at h
      rcases List.mem_cons.mp hp with hq | hr
      · subst hq; exact fun he => hk he.symm
      · exact ih h p hr

end LookupLemmas

theorem lookup_replace_self (acc : List (String × WordData)) (key : String)
    (curr : WordData) (b : WordData) (h : acc.lookup key = some b) :
    (acc.map (fun p => if p.1 = key then (key, curr) else p)).lookup key = some curr := by
  induction acc with
  | nil => simp [List.lookup] at h
  | cons p rest ih =>
    rw [lookup_cons_eqn] at h
    rw [List.map_cons]
    by_cases hp : p.1 = key
    · rw [if_pos hp, lookup_cons_eqn]
      simp
    · rw [if_neg hp, lookup_cons_eqn, if_neg (fun he => hp he.symm)]
      rw [if_neg (fun he => hp he.symm)] at h
      exact ih h

theorem lookup_replace_other (acc : List (String × WordData)) (key : String)
    (curr : WordData) (k : String) (hne : k ≠ key) :
    (acc.map (fun p => if p.1 = key then (key, curr) else p)).lookup k = acc.lookup k := by
  induction acc with
  | nil => simp
  | cons p rest ih =>
    rw [List.map_cons]
    by_cases hp : p.1 = key
    · rw [if_pos hp, lookup_cons_eqn, lookup_cons_eqn, if_neg hne,
        if_neg (fun he => hne (he.trans hp))]
      exact ih
    · rw [if_neg hp, lookup_cons_eqn, lookup_cons_eqn]
      by_cases hk : k = p.1
      · rw [if_pos hk, if_pos hk]
      · rw [if_neg hk, if_neg hk]
        exact ih

theorem lookup_none_of_not_mem {β : Type} (l : List (String × β)) (k : String)
    (h : ∀ p ∈ l, p.1 ≠ k) : l.lookup k = none := by
  induction l with
  | nil => rfl
  | cons p rest ih =>
    rw [lookup_cons_eqn, if_neg (fun he => h p (List.mem_cons_self _ _) he.symm)]
    exact ih (fun q hq => h q (List.mem_cons_of_mem _ hq))

theorem dedupStep_lookup (acc : List (String × WordData)) (curr : WordData) (k : String) :
    (dedupStep acc curr).lookup k =
      if k = toLowerStr curr.word then pickLater (acc.lookup k) curr
      else acc.lookup k := by
  unfold dedupStep
  cases hl : acc.lookup (toLowerStr curr.word) with
  | none =>
    simp only [hl]
    by_cases hk : k = toLowerStr curr.word
    · subst hk
      rw [lookup_append_of_none _ _ _ hl, lookup_singleton_self, if_pos rfl, hl]
      rfl
    · rw [if_neg hk]
      cases h2 : acc.lookup k with
      | none =>
        rw [lookup_append_of_none _ _ _ h2, lookup_cons_eqn]
        simp [hk]
      | some b => rw [lookup_append_of_some _ _ _ _ h2]
  | some existing =>
    simp only [hl]
    by_cases hlt : existing.dateAdded < curr.dateAdded
    · rw [if_pos hlt]
      by_cases hk : k = toLowerStr curr.word
      · subst hk
        rw [lookup_replace_self _ _ _ _ hl, if_pos rfl, hl]
        simp [pickLater, hlt]
      · rw [lookup_replace_other _ _ _ _ hk, if_neg hk]
    · rw [if_neg hlt]
      by_cases hk : k = toLowerStr curr.word
      · subst hk
        rw [if_pos rfl, hl]
        simp [pickLater, hlt]
      · rw [if_neg hk]

theorem dedupStep_wf (acc : List (String × WordData)) (curr : WordData)
    (h : accWf acc) : accWf (dedupStep acc curr) := by
  obtain ⟨h1, h2⟩ := h
  unfold dedupStep
  cases hl : acc.lookup (toLowerStr curr.word) with
  | none =>
    simp only [hl]
    constructor
    · intro p hp
      rcases List.mem_append.mp hp with hm | hm
      · exact h1 p hm
      · simp only [List.mem_singleton] at hm
        subst hm
        rfl
    · rw [List.map_append]
      refine List.Nodup.append h2 (List.nodup_singleton _) ?_
      intro a ha hb
      simp only [List.map_cons, List.map_nil, List.mem_singleton] at hb
      subst hb
      obtain ⟨p, hp, hfst⟩ := List.mem_map.mp ha
      exact lookup_none_not_mem _ _ hl p hp hfst
  | some existing =>
    simp only [hl]
    by_cases hlt : existing.dateAdded < curr.dateAdded
    · rw [if_pos hlt]
      constructor
      · intro p hp
        obtain ⟨q, hq, hqe⟩ := List.mem_map.mp hp
        subst hqe
        by_cases hq1 : q.1 = toLowerStr curr.word
        · simp only [if_pos hq1]
          rfl
        · simp only [if_neg hq1]
          exact h1 q hq
      · have hfst : (acc.map (fun p =>
            if p.1 = toLowerStr curr.word then (toLowerStr curr.word, curr) else p)).map
              Prod.fst = acc.map Prod.fst := by
          rw [List.map_map]
          refine List.map_congr_left ?_
          intro p _
          by_cases hq1 : p.1 = toLowerStr curr.word
          · simp [hq1]
          · simp [hq1]
        rw [hfst]
        exact h2
    · rw [if_neg hlt]
      exact ⟨h1, h2⟩

theorem foldl_dedupStep_spec (data : List WordData) :
    ∀ acc : List (String × WordData), accWf acc →
      accWf (data.foldl dedupStep acc) ∧
      ∀ k, (data.foldl dedupStep acc).lookup k =
        (data.filter (fun e => wordKey e == k)).foldl pickLater (acc.lookup k) := by
  induction data with
  | nil => exact fun acc h => ⟨h, fun k => rfl⟩
  | cons curr rest ih =>
    intro acc h
    rw [List.foldl_cons]
    obtain ⟨hwf, hlk⟩ := ih (dedupStep acc curr) (dedupStep_wf _ _ h)
    refine ⟨hwf, fun k => ?_⟩
    rw [hlk k, dedupStep_lookup]
    by_cases hk : k = toLowerStr curr.word
    · rw [if_pos hk]
      have hb : (wordKey curr == k) = true := by
        rw [beq_iff_eq, wordKey, hk]
      rw [List.filter_cons, hb]
      simp only [if_true, List.foldl_cons]
    · rw [if_neg hk]
      have hb : (wordKey curr == k) = false := by
        rw [beq_eq_false_iff_ne, wordKey]
        exact fun he => hk he.symm
      rw [List.filter_cons, hb]
      simp only [if_false, Bool.false_eq_true]

theorem accWf_filter_values :
    ∀ acc : List (String × WordData), accWf acc → ∀ k : String,
      (acc.map Prod.snd).filter (fun e => wordKey e == k) = (acc.lookup k).toList := by
  intro acc
  induction acc with
  | nil => intro _ _; rfl
  | cons p rest ih =>
    intro h k
    obtain ⟨h1, h2⟩ := h
    have hp1 : p.1 = wordKey p.2 := h1 p (List.mem_cons_self _ _)
    rw [List.map_cons] at h2
    have hnotin : p.1 ∉ rest.map Prod.fst := (List.nodup_cons.mp h2).1
    have hrest : accWf rest :=
      ⟨fun q hq => h1 q (List.mem_cons_of_mem _ hq), (List.nodup_cons.mp h2).2⟩
    rw [List.map_cons, List.filter_cons, lookup_cons_eqn]
    by_cases hk : k = p.1
    · have hpred : (wordKey p.2 == k) = true := by
        rw [beq_iff_eq, ← hp1, hk]
      rw [if_pos hk, hpred]
      simp only [if_true]
      have hlrest : rest.lookup k = none := by
        refine lookup_none_of_not_mem _ _ ?_
        intro q hq he
        exact hnotin (hk ▸ he ▸ List.mem_map_of_mem Prod.fst hq)
      rw [ih hrest k, hlrest]
      rfl
    · have hpred : (wordKey p.2 == k) = false := by
        rw [beq_eq_false_iff_ne, ← hp1]
        exact fun he => hk he.symm
      rw [if_neg hk, hpred]
      simp only [Bool.false_eq_true, if_false]
      exact ih hrest k

theorem foldl_pickLater_ne_none :
    ∀ (l : List WordData) (b : WordData), l.foldl pickLater (some b) ≠ none := by
  intro l
  induction l with
  | nil => intro b h; exact Option.noConfusion h
  | cons e rest ih =>
    intro b
    rw [List.foldl_cons]
    show rest.foldl pickLater (pickLater (some b) e) ≠ none
    unfold pickLater
    by_cases hlt : b.dateAdded < e.dateAdded
    · simp only [if_pos hlt]; exact ih e
    · simp only [if_neg hlt]; exact ih b

theorem foldl_pickLater_prop (P : WordData → Prop) :
    ∀ (l : List WordData) (b : Option WordData) (v : WordData),
      (∀ x, b = some x → P x) → (∀ x ∈ l, P x) →
      l.foldl pickLater b = some v → P v := by
  intro l
  induction l with
  | nil => exact fun b v hb _ h => hb v h
  | cons e rest ih =>
    intro b v hb hl h
    rw [List.foldl_cons] at h
    refine ih (pickLater b e) v ?_ (fun x hx => hl x (List.mem_cons_of_mem _ hx)) h
    intro x hx
    unfold pickLater at hx
    cases b with
    | none =>
      simp only [Option.some.injEq] at hx
      exact hx ▸ hl e (List.mem_cons_self _ _)
    | some w =>
      by_cases hlt : w.dateAdded < e.dateAdded
      · simp only [if_pos hlt, Option.some.injEq] at hx
        exact hx ▸ hl e (List.mem_cons_self _ _)
      · simp only [if_neg hlt, Option.some.injEq] at hx
        exact hx ▸ hb w rfl

theorem foldl_pickLater_ge :
    ∀ (l : List WordData) (b : Option WordData) (v : WordData),
      l.foldl pickLater b = some v →
      (∀ x ∈ l, x.dateAdded ≤ v.dateAdded) ∧
      (∀ w, b = some w → w.dateAdded ≤ v.dateAdded) := by
  intro l
  induction l with
  | nil =>
    intro b v h
    refine ⟨fun x hx => absurd hx (List.not_mem_nil x), fun w hw => ?_⟩
    rw [hw] at h
    simp only [List.foldl_nil, Option.some.injEq] at h
    exact h ▸ le_refl _
  | cons e rest ih =>
    intro b v h
    rw [List.foldl_cons] at h
    obtain ⟨hrest, hstart⟩ := ih (pickLater b e) v h
    have hpick : ∀ x, pickLater b e = some x →
        e.dateAdded ≤ x.dateAdded ∧ ∀ w, b = some w → w.dateAdded ≤ x.dateAdded := by
      intro x hx
      unfold pickLater at hx
      cases b with
      | none =>
        simp only [Option.some.injEq] at hx
        subst hx
        exact ⟨le_refl _, fun w hw => Option.noConfusion hw⟩
      | some w =>
        by_cases hlt : w.dateAdded < e.dateAdded
        · simp only [if_pos hlt, Option.some.injEq] at hx
          subst hx
          refine ⟨le_refl _, fun w2 hw2 => ?_⟩
          cases hw2
          exact le_of_lt hlt
        · simp only [if_neg hlt, Option.some.injEq] at hx
          subst hx
          refine ⟨le_of_not_lt hlt, fun w2 hw2 => ?_⟩
          cases hw2
          exact le_refl _
    have hpe : ∃ x, pickLater b e = some x := by
      unfold pickLater
      cases b with
      | none => exact ⟨e, rfl⟩
      | some w =>
        by_cases hlt : w.dateAdded < e.dateAdded
        · exact ⟨e, by simp [if_pos hlt]⟩
        · exact ⟨w, by simp [if_neg hlt]⟩
    obtain ⟨x, hx⟩ := hpe
    obtain ⟨hex, hbx⟩ := hpick x hx
    have hxv : x.dateAdded ≤ v.dateAdded := hstart x hx
    constructor
    · intro y hy
      rcases List.mem_cons.mp hy with hye | hyr
      · exact hye ▸ le_trans hex hxv
      · exact hrest y hyr
    · exact fun w hw => le_trans (hbx w hw) hxv

theorem bestEntry_isSome (data : List WordData) (e : WordData) (h : e ∈ data) :
    ∃ v, bestEntry (wordKey e) data = some v := by
  unfold bestEntry
  have hmem : e ∈ data.filter (fun x => wordKey x == wordKey e) :=
    List.mem_filter.mpr ⟨h, by simp⟩
  cases hf : data.filter (fun x => wordKey x == wordKey e) with
  | nil => rw [hf] at hmem; exact absurd hmem (List.not_mem_nil e)
  | cons a rest =>
    rw [List.foldl_cons]
    show ∃ v, rest.foldl pickLater (some a) = some v
    cases hr : rest.foldl pickLater (some a) with
    | none => exact absurd hr (foldl_pickLater_ne_none rest a)
    | some v => exact ⟨v, rfl⟩

theorem bestEntry_mem (k : String) (data : List WordData) (v : WordData)
    (h : bestEntry k data = some v) : v ∈ data ∧ wordKey v = k := by
  unfold bestEntry at h
  refine foldl_pickLater_prop (fun x => x ∈ data ∧ wordKey x = k) _ none v
    (fun x hx => Option.noConfusion hx) ?_ h
  intro x hx
  obtain ⟨hmem, hpred⟩ := List.mem_filter.mp hx
  exact ⟨hmem, by simpa using hpred⟩

theorem bestEntry_max (k : String) (data : List WordData) (v : WordData)
    (h : bestEntry k data = some v) :
    ∀ e ∈ data, wordKey e = k → e.dateAdded ≤ v.dateAdded := by
  unfold bestEntry at h
  intro e hmem hk
  refine (foldl_pickLater_ge _ none v h).1 e ?_
  exact List.mem_filter.mpr ⟨hmem, by simp [hk]⟩

/-- The central characterisation of `deduplicateWordData`: restricted to
any single key, the output is exactly the entry `bestEntry` describes
(or nothing when the key does not occur). -/
theorem filter_deduplicateWordData (data : List WordData) (k : String) :
    (deduplicateWordData data).filter (fun e => wordKey e == k) =
      (bestEntry k data).toList := by
  obtain ⟨hwf, hlk⟩ := foldl_dedupStep_spec data [] ⟨fun p hp => absurd hp (List.not_mem_nil p), List.nodup_nil⟩
  have hperm : (deduplicateWordData data).Perm ((data.foldl dedupStep []).map Prod.snd) :=
    List.perm_insertionSort _ _
  have hpf := List.Perm.filter (fun e => wordKey e == k) hperm
  have hvals : ((data.foldl dedupStep []).map Prod.snd).filter (fun e => wordKey e == k) =
      ((data.foldl dedupStep []).lookup k).toList :=
    accWf_filter_values _ hwf k
  have hbe : (data.foldl dedupStep []).lookup k = bestEntry k data := by
    rw [hlk k]
    rfl
  rw [hvals, hbe] at hpf
  cases hb : bestEntry k data with
  | none =>
    rw [hb] at hpf
    exact List.Perm.eq_nil hpf
  | some v =>
    rw [hb] at hpf
    exact List.perm_singleton.mp hpf

/-- C1: for any two ledger entries sharing the same case-insensitive word
key where one has a strictly later `dateAdded`, `deduplicateWordData`
(applied on every read and write of the vocabulary file) keeps exactly one
entry for that key; the strictly earlier entry — with all of its
example/notes/tags content — is absent from the result, and the surviving
entry's `dateAdded` is the latest among all entries with that key. -/
theorem deduplicateWordData_last_write_wins (data : List WordData) (e1 e2 : WordData)
    (h1 : e1 ∈ data) (h2 : e2 ∈ data) (hk : wordKey e1 = wordKey e2)
    (hlt : e1.dateAdded < e2.dateAdded) :
    (deduplicateWordData data).countP (fun e => wordKey e == wordKey e2) = 1 ∧
    e1 ∉ deduplicateWordData data ∧
    (∃ s ∈ deduplicateWordData data, wordKey s = wordKey e2 ∧
      ∀ e ∈ data, wordKey e = wordKey e2 → e.dateAdded ≤ s.dateAdded) ∧
    ((∀ e ∈ data, wordKey e = wordKey e2 → e = e1 ∨ e = e2) →
      e2 ∈ deduplicateWordData data) := by
  obtain ⟨v, hv⟩ := bestEntry_isSome data e2 h2
  have hfd := filter_deduplicateWordData data (wordKey e2)
  rw [hv] at hfd
  have hvin : v ∈ (deduplicateWordData data).filter (fun e => wordKey e == wordKey e2) := by
    rw [hfd]
    exact List.mem_singleton_self v
  have hvmem := List.mem_filter.mp hvin
  have hvk : wordKey v = wordKey e2 := by simpa using hvmem.2
  have hmax := bestEntry_max _ _ _ hv
  have hv2 : e2.dateAdded ≤ v.dateAdded := hmax e2 h2 rfl
  have hne1v : e1 ≠ v := by
    intro he1v
    have hcontra : e1.dateAdded < e1.dateAdded := by
      calc e1.dateAdded < e2.dateAdded := hlt
        _ ≤ v.dateAdded := hv2
        _ = e1.dateAdded := by rw [he1v]
    exact absurd hcontra (lt_irrefl _)
  refine ⟨?_, ?_, ⟨v, hvmem.1, hvk, fun e hm hke => hmax e hm hke⟩, ?_⟩
  · rw [List.countP_eq_length_filter, hfd]
    rfl
  · intro hmem
    have hin : e1 ∈ (deduplicateWordData data).filter (fun e => wordKey e == wordKey e2) :=
      List.mem_filter.mpr ⟨hmem, by simp [hk]⟩
    rw [hfd] at hin
    exact hne1v (List.mem_singleton.mp hin)
  · intro hpair
    obtain ⟨hvdata, hvkey⟩ := bestEntry_mem _ _ _ hv
    rcases hpair v hvdata hvkey with he | he
    · exact absurd he.symm hne1v
    · exact he ▸ hvmem.1

/-- C1 witness: the spec's own example — `{word:"run", dateAdded:1}` then
`{word:"Run", dateAdded:2}` — evaluated concretely. -/
theorem deduplicateWordData_last_write_wins_witness :
    (deduplicateWordData
        [(⟨"run", "to move fast", none, none, none, 1⟩ : WordData),
         (⟨"Run", "to move quickly", some "I Run often", none, none, 2⟩ : WordData)]).countP
      (fun e => wordKey e ==
        wordKey (⟨"Run", "to move quickly", some "I Run often", none, none, 2⟩ : WordData)) = 1 ∧
    (⟨"run", "to move fast", none, none, none, 1⟩ : WordData) ∉
      deduplicateWordData
        [(⟨"run", "to move fast", none, none, none, 1⟩ : WordData),
         (⟨"Run", "to move quickly", some "I Run often", none, none, 2⟩ : WordData)] ∧
    (∃ s ∈ deduplicateWordData
          [(⟨"run", "to move fast", none, none, none, 1⟩ : WordData),
           (⟨"Run", "to move quickly", some "I Run often", none, none, 2⟩ : WordData)],
        wordKey s = wordKey (⟨"Run", "to move quickly", some "I Run often", none, none, 2⟩ : WordData) ∧
        ∀ e ∈ [(⟨"run", "to move fast", none, none, none, 1⟩ : WordData),
               (⟨"Run", "to move quickly", some "I Run often", none, none, 2⟩ : WordData)],
          wordKey e = wordKey (⟨"Run", "to move quickly", some "I Run often", none, none, 2⟩ : WordData) →
          e.dateAdded ≤ s.dateAdded) ∧
      ((∀ e ∈ [(⟨"run", "to move fast", none, none, none, 1⟩ : WordData),
               (⟨"Run", "to move quickly", some "I Run often", none, none, 2⟩ : WordData)],
          wordKey e = wordKey (⟨"Run", "to move quickly", some "I Run often", none, none, 2⟩ : WordData) →
          e = (⟨"run", "to move fast", none, none, none, 1⟩ : WordData) ∨
          e = (⟨"Run", "to move quickly", some "I Run often", none, none, 2⟩ : WordData)) →
        (⟨"Run", "to move quickly", some "I Run often", none, none, 2⟩ : WordData) ∈
          deduplicateWordData
            [(⟨"run", "to move fast", none, none, none, 1⟩ : WordData),
             (⟨"Run", "to move quickly", some "I Run often", none, none, 2⟩ : WordData)]) :=
  deduplicateWordData_last_write_wins _ _ _
    (by decide) (by decide) (by decide) (by decide)

/-- C10: when exactly two entries share a key and their `dateAdded`
timestamps are exactly equal, `deduplicateWordData` keeps the entry
occurring earlier in the input and discards the later occurrence, because
the replacement test `newDate > existingDate` is strict. -/
theorem deduplicateWordData_tie_keeps_first (data : List WordData)
    (e1 e2 : WordData) (k : String)
    (hf : data.filter (fun e => wordKey e == k) = [e1, e2])
    (heq : e1.dateAdded = e2.dateAdded) (hne : e1 ≠ e2) :
    e1 ∈ deduplicateWordData data ∧ e2 ∉ deduplicateWordData data := by
  have hbe : bestEntry k data = some e1 := by
    unfold bestEntry
    rw [hf]
    simp only [List.foldl_cons, List.foldl_nil]
    have h0 : pickLater none e1 = some e1 := rfl
    rw [h0]
    show (if e1.dateAdded < e2.dateAdded then some e2 else some e1) = some e1
    rw [if_neg (by rw [heq]; exact lt_irrefl _)]
  have hfd := filter_deduplicateWordData data k
  rw [hbe] at hfd
  have he2 : e2 ∈ data.filter (fun e => wordKey e == k) := by
    rw [hf]
    simp
  have he2mem := List.mem_filter.mp he2
  constructor
  · have hin : e1 ∈ (deduplicateWordData data).filter (fun e => wordKey e == k) := by
      rw [hfd]
      simp
    exact (List.mem_filter.mp hin).1
  · intro hmem
    have hin : e2 ∈ (deduplicateWordData data).filter (fun e => wordKey e == k) :=
      List.mem_filter.mpr ⟨hmem, he2mem.2⟩
    rw [hfd] at hin
    exact hne (List.mem_singleton.mp hin).symm

/-- C10 witness: two entries with equal timestamps and key `"run"`; the
first stays, the second is discarded. -/
theorem deduplicateWordData_tie_keeps_first_witness :
    (⟨"run", "first meaning", none, none, none, 5⟩ : WordData) ∈
      deduplicateWordData
        [(⟨"run", "first meaning", none, none, none, 5⟩ : WordData),
         (⟨"Run", "second meaning", none, none, none, 5⟩ : WordData)] ∧
    (⟨"Run", "second meaning", none, none, none, 5⟩ : WordData) ∉
      deduplicateWordData
        [(⟨"run", "first meaning", none, none, none, 5⟩ : WordData),
         (⟨"Run", "second meaning", none, none, none, 5⟩ : WordData)] :=
  deduplicateWordData_tie_keeps_first _ _ _ "run"
    (by decide) (by decide) (by decide)

/-- C4: with `maxRetries = 2` and `initialRetryDelay = 500` (the
constructor defaults), an action failing on every attempt performs exactly
3 attempts, sleeps 500 ms then 1000 ms between consecutive attempts
(`2 ^ attempt * 500`), and finally throws the third attempt's error
unchanged; a well-formed envelope with no error is returned as success on
the first attempt — whatever its result value, including an empty one —
with no retry. -/
theorem invokeAnkiConnect_retry_exhaustion {α : Type}
    (responses : Nat → FetchResponse α) (errs : Nat → String) (r : α) :
    ((∀ i, attemptResult (responses i) = .error (errs i)) →
      invokeAnkiConnect responses 2 500 =
        ⟨.error (errs 2), 3, [500, 1000]⟩) ∧
    invokeAnkiConnect (fun _ => FetchResponse.envelope none r) 2 500 =
      ⟨.ok r, 1, []⟩ := by
  constructor
  · intro h
    show invokeGo responses 500 2 0 3 = _
    rw [show (3 : Nat) = 2 + 1 from rfl]
    unfold invokeGo
    rw [h 0]
    simp only [show (0 < 2) = True by simp, if_true]
    rw [show (2 : Nat) = 1 + 1 from rfl]
    unfold invokeGo
    rw [h 1]
    simp only [show (1 < 1 + 1) = True by simp, if_true]
    rw [show (1 : Nat) = 0 + 1 from rfl]
    unfold invokeGo
    rw [h 2]
    simp only [show ¬(0 + 1 + 1 - 1 < 0 + 1) by omega, if_false]
    norm_num
  · rfl

/-- C4 witness: a transport that rejects every attempt yields exactly
3 attempts, delays `[500, 1000]`, and the third attempt's error; a
well-formed envelope carrying the empty result list succeeds on the first
attempt. -/
theorem invokeAnkiConnect_retry_exhaustion_witness :
    invokeAnkiConnect (fun i => FetchResponse.netError (α := List Nat) (toString i)) 2 500 =
      ⟨.error (toString 2), 3, [500, 1000]⟩ ∧
    invokeAnkiConnect (fun _ => FetchResponse.envelope (α := List Nat) none []) 2 500 =
      ⟨.ok [], 1, []⟩ :=
  ⟨(invokeAnkiConnect_retry_exhaustion
      (fun i => FetchResponse.netError (toString i)) (fun i => toString i) []).1
      (fun _ => rfl),
   (invokeAnkiConnect_retry_exhaustion
      (fun i => FetchResponse.netError (toString i)) (fun i => toString i) []).2⟩

theorem lookup_append_singleton_ne {β : Type} (l : List (String × β))
    (k k2 : String) (b : β) (hne : k2 ≠ k) :
    (l ++ [(k, b)]).lookup k2 = l.lookup k2 := by
  cases h : l.lookup k2 with
  | none =>
    rw [lookup_append_of_none _ _ _ h, lookup_cons_eqn, if_neg hne]
    rfl
  | some v => exact lookup_append_of_some _ _ _ _ h

/-- Unfolding equation for `createAudioFile`, with the filename written
through `audioFilename`. -/
theorem createAudioFile_eqn (tts getStableHash : String → String) (s : AudioState)
    (text word audioType : String) :
    createAudioFile tts getStableHash s text word audioType =
      match s.localFiles.lookup (audioFilename getStableHash word audioType text) with
      | some bytes =>
        if audioFilename getStableHash word audioType text ∈ s.ankiMedia.map Prod.fst then
          (audioFilename getStableHash word audioType text, s)
        else (audioFilename getStableHash word audioType text,
          { s with
            ankiMedia := s.ankiMedia ++ [(audioFilename getStableHash word audioType text, bytes)]
            storeCalls := s.storeCalls + 1 })
      | none =>
        (audioFilename getStableHash word audioType text,
         { localFiles := s.localFiles ++
             [(audioFilename getStableHash word audioType text, tts text)],
           ankiMedia := s.ankiMedia ++
             [(audioFilename getStableHash word audioType text, tts text)],
           ttsCalls := s.ttsCalls + 1,
           storeCalls := s.storeCalls + 1 }) := rfl

theorem createAudioFile_local_hit_anki_hit (tts getStableHash : String → String)
    (s : AudioState) (text word audioType : String) (bytes : String)
    (hloc : s.localFiles.lookup (audioFilename getStableHash word audioType text) =
      some bytes)
    (hmem : audioFilename getStableHash word audioType text ∈ s.ankiMedia.map Prod.fst) :
    createAudioFile tts getStableHash s text word audioType =
      (audioFilename getStableHash word audioType text, s) := by
  rw [createAudioFile_eqn]
  simp only [hloc]
  rw [if_pos hmem]

theorem createAudioFile_local_hit_anki_miss (tts getStableHash : String → String)
    (s : AudioState) (text word audioType : String) (bytes : String)
    (hloc : s.localFiles.lookup (audioFilename getStableHash word audioType text) =
      some bytes)
    (hmem : audioFilename getStableHash word audioType text ∉ s.ankiMedia.map Prod.fst) :
    createAudioFile tts getStableHash s text word audioType =
      (audioFilename getStableHash word audioType text,
       { s with
         ankiMedia := s.ankiMedia ++ [(audioFilename getStableHash word audioType text, bytes)]
         storeCalls := s.storeCalls + 1 }) := by
  rw [createAudioFile_eqn]
  simp only [hloc]
  rw [if_neg hmem]

theorem createAudioFile_local_miss (tts getStableHash : String → String)
    (s : AudioState) (text word audioType : String)
    (hloc : s.localFiles.lookup (audioFilename getStableHash word audioType text) = none) :
    createAudioFile tts getStableHash s text word audioType =
      (audioFilename getStableHash word audioType text,
       { localFiles := s.localFiles ++
           [(audioFilename getStableHash word audioType text, tts text)],
         ankiMedia := s.ankiMedia ++
           [(audioFilename getStableHash word audioType text, tts text)],
         ttsCalls := s.ttsCalls + 1,
         storeCalls := s.storeCalls + 1 }) := by
  rw [createAudioFile_eqn]
  simp only [hloc]

/-- C2: `createAudioFile` is idempotent — the first call returns the
filename `sanitize(word) ++ "-" ++ role ++ "-" ++ hash(text) ++ ".mp3"`
(a pure function of the arguments) together with a state `s1`; the second
call with identical arguments returns the same filename and leaves `s1`
exactly unchanged, so in particular it performs no synthesis and no store
call; and when the filename was not cached locally before the first call,
the two calls together perform exactly one text-to-speech synthesis,
namely in the first call. -/
theorem createAudioFile_idempotent (tts getStableHash : String → String)
    (s0 : AudioState) (text word audioType : String) :
    ∃ s1 : AudioState,
      createAudioFile tts getStableHash s0 text word audioType =
        (audioFilename getStableHash word audioType text, s1) ∧
      createAudioFile tts getStableHash s1 text word audioType =
        (audioFilename getStableHash word audioType text, s1) ∧
      (s0.localFiles.lookup (audioFilename getStableHash word audioType text) = none →
        s1.ttsCalls = s0.ttsCalls + 1) := by
  cases hl : s0.localFiles.lookup (audioFilename getStableHash word audioType text) with
  | some bytes =>
    by_cases hmem : audioFilename getStableHash word audioType text ∈ s0.ankiMedia.map Prod.fst
    · refine ⟨s0, createAudioFile_local_hit_anki_hit tts getStableHash s0 _ _ _ bytes hl hmem,
        createAudioFile_local_hit_anki_hit tts getStableHash s0 _ _ _ bytes hl hmem,
        fun hc => Option.noConfusion hc⟩
    · refine ⟨{ s0 with
          ankiMedia := s0.ankiMedia ++ [(audioFilename getStableHash word audioType text, bytes)]
          storeCalls := s0.storeCalls + 1 },
        createAudioFile_local_hit_anki_miss tts getStableHash s0 _ _ _ bytes hl hmem,
        createAudioFile_local_hit_anki_hit tts getStableHash _ _ _ _ bytes hl ?_,
        fun hc => Option.noConfusion hc⟩
      simp
  | none =>
    refine ⟨⟨s0.localFiles ++ [(audioFilename getStableHash word audioType text, tts text)],
        s0.ankiMedia ++ [(audioFilename getStableHash word audioType text, tts text)],
        s0.ttsCalls + 1, s0.storeCalls + 1⟩,
      createAudioFile_local_miss tts getStableHash s0 _ _ _ hl,
      createAudioFile_local_hit_anki_hit tts getStableHash _ _ _ _ (tts text) ?_ ?_,
      fun _ => rfl⟩
    · show (s0.localFiles ++ [(audioFilename getStableHash word audioType text, tts text)]).lookup
        (audioFilename getStableHash word audioType text) = some (tts text)
      rw [lookup_append_of_none _ _ _ hl, lookup_singleton_self]
    · show audioFilename getStableHash word audioType text ∈
        (s0.ankiMedia ++ [(audioFilename getStableHash word audioType text, tts text)]).map Prod.fst
      simp

/-- C2 witness: starting from the empty state, the first call synthesizes
once, the second call is a no-op returning the same filename. -/
theorem createAudioFile_idempotent_witness :
    ∃ s1 : AudioState,
      createAudioFile (fun _ => "BYTES") (fun _ => "abcd1234") ⟨[], [], 0, 0⟩
          "to run fast" "run" "definition" =
        (audioFilename (fun _ => "abcd1234") "run" "definition" "to run fast", s1) ∧
      createAudioFile (fun _ => "BYTES") (fun _ => "abcd1234") s1
          "to run fast" "run" "definition" =
        (audioFilename (fun _ => "abcd1234") "run" "definition" "to run fast", s1) ∧
      ((([] : List (String × String)).lookup
          (audioFilename (fun _ => "abcd1234") "run" "definition" "to run fast") = none) →
        s1.ttsCalls = 0 + 1) :=
  createAudioFile_idempotent (fun _ => "BYTES") (fun _ => "abcd1234")
    ⟨[], [], 0, 0⟩ "to run fast" "run" "definition"

/-- C6: cache repair without resynthesis — when the derived filename is
present in the local cache but absent from the external media list,
`createAudioFile` performs zero synthesis calls and exactly one
`storeMediaFile` call pushing the local bytes to the external store, and
returns the filename. -/
theorem createAudioFile_cache_repair (tts getStableHash : String → String)
    (s : AudioState) (text word audioType : String) (bytes : String)
    (hloc : s.localFiles.lookup (audioFilename getStableHash word audioType text) =
      some bytes)
    (hanki : audioFilename getStableHash word audioType text ∉ s.ankiMedia.map Prod.fst) :
    createAudioFile tts getStableHash s text word audioType =
      (audioFilename getStableHash word audioType text,
       { s with
         ankiMedia := s.ankiMedia ++ [(audioFilename getStableHash word audioType text, bytes)]
         storeCalls := s.storeCalls + 1 }) ∧
    (createAudioFile tts getStableHash s text word audioType).2.ttsCalls = s.ttsCalls ∧
    (createAudioFile tts getStableHash s text word audioType).2.storeCalls =
      s.storeCalls + 1 := by
  have h1 := createAudioFile_local_hit_anki_miss tts getStableHash s text word audioType
    bytes hloc hanki
  refine ⟨h1, ?_, ?_⟩
  · rw [h1]
  · rw [h1]

/-- C6 witness: a state holding the file locally with an empty external
media list; the call pushes the local bytes and synthesizes nothing. -/
theorem createAudioFile_cache_repair_witness :
    createAudioFile (fun _ => "FRESH") (fun _ => "beef7777")
        ⟨[("run-word-beef7777.mp3", "OLDBYTES")], [], 4, 9⟩ "run" "run" "word" =
      ("run-word-beef7777.mp3",
       ⟨[("run-word-beef7777.mp3", "OLDBYTES")],
        [("run-word-beef7777.mp3", "OLDBYTES")], 4, 10⟩) ∧
    (createAudioFile (fun _ => "FRESH") (fun _ => "beef7777")
        ⟨[("run-word-beef7777.mp3", "OLDBYTES")], [], 4, 9⟩ "run" "run" "word").2.ttsCalls =
      4 ∧
    (createAudioFile (fun _ => "FRESH") (fun _ => "beef7777")
        ⟨[("run-word-beef7777.mp3", "OLDBYTES")], [], 4, 9⟩ "run" "run" "word").2.storeCalls =
      9 + 1 := by
  have h := createAudioFile_cache_repair (fun _ => "FRESH") (fun _ => "beef7777")
    ⟨[("run-word-beef7777.mp3", "OLDBYTES")], [], 4, 9⟩ "run" "run" "word" "OLDBYTES"
    (by decide) (by decide)
  exact ⟨h.1.trans (by decide), h.2.1, h.2.2⟩

theorem chunkArrayGo_flatten {α : Type} (s : Nat) :
    ∀ (fuel : Nat) (l : List α), l.length ≤ fuel →
      (chunkArrayGo (s + 1) fuel l).flatten = l := by
  intro fuel
  induction fuel with
  | zero =>
    intro l hl
    rw [List.length_eq_zero.mp (Nat.le_zero.mp hl)]
    rfl
  | succ n ih =>
    intro l hl
    cases l with
    | nil => rfl
    | cons a as =>
      rw [chunkArrayGo, List.flatten_cons]
      rw [ih ((a :: as).drop (s + 1)) ?_]
      · exact List.take_append_drop _ _
      · rw [List.length_drop]
        simp only [List.length_cons] at hl ⊢
        omega

theorem chunkArray_flatten {α : Type} (s : Nat) (l : List α) :
    (chunkArray l (s + 1)).flatten = l :=
  chunkArrayGo_flatten s l.length l (le_refl _)

theorem mapIdx_length {α β : Type} (f : Nat → α → β) :
    ∀ (l : List α) (i : Nat), (mapIdx f i l).length = l.length := by
  intro l
  induction l with
  | nil => intro i; rfl
  | cons a as ih =>
    intro i
    rw [mapIdx, List.length_cons, List.length_cons, ih]

theorem map_mapIdx {α β γ : Type} (f : Nat → α → β) (g : β → γ) :
    ∀ (l : List α) (i : Nat),
      (mapIdx f i l).map g = mapIdx (fun j a => g (f j a)) i l := by
  intro l
  induction l with
  | nil => intro i; rfl
  | cons a as ih =>
    intro i
    rw [mapIdx, List.map_cons, ih, mapIdx]

/-- The batched loop processes exactly the input entries in input order:
chunking into `Promise.all` groups of three neither reorders, drops nor
duplicates work. -/
theorem runBatches_eq (downstream : WordInput → Option String) (nowFn : Nat → Int)
    (words : List WordInput) :
    runBatches downstream nowFn words =
      mapIdx (fun i w => processOneWord downstream (nowFn i) w) 0 words := by
  unfold runBatches
  rw [← List.map_flatten]
  rw [show (3 : Nat) = 2 + 1 from rfl]
  rw [chunkArray_flatten 2 (mapIdx (fun i w => (i, w)) 0 words)]
  rw [map_mapIdx]

theorem processOneWord_of_entryError_none (downstream : WordInput → Option String)
    (now : Int) (w : WordInput) (h : entryError downstream w = none) :
    processOneWord downstream now w = .success (toWordData w now) := by
  unfold processOneWord
  unfold entryError at h
  by_cases hv : (validateWordData w).isValid = false
  · rw [if_pos hv] at h
    exact absurd h (by simp)
  · rw [if_neg hv] at h
    rw [if_neg hv, h]

theorem processOneWord_of_entryError_some (downstream : WordInput → Option String)
    (now : Int) (w : WordInput) (e : String) (h : entryError downstream w = some e) :
    processOneWord downstream now w = .failure w.word e := by
  unfold processOneWord
  unfold entryError at h
  by_cases hv : (validateWordData w).isValid = false
  · rw [if_pos hv] at h
    rw [if_pos hv]
    simp only [Option.some.injEq] at h
    rw [h]
  · rw [if_neg hv] at h
    rw [if_neg hv, h]

theorem collectResults_mapIdx (downstream : WordInput → Option String) (nowFn : Nat → Int) :
    ∀ (words : List WordInput) (i : Nat),
      (collectResults (mapIdx (fun j w => processOneWord downstream (nowFn j) w) i words)).success.map
          toInput = words.filter (fun w => (entryError downstream w).isNone) ∧
      (collectResults (mapIdx (fun j w => processOneWord downstream (nowFn j) w) i words)).failed =
        (words.filter (fun w => !(entryError downstream w).isNone)).map
          (fun w => ⟨w.word, (entryError downstream w).getD ""⟩) := by
  intro words
  induction words with
  | nil => intro i; exact ⟨rfl, rfl⟩
  | cons w ws ih =>
    intro i
    obtain ⟨ihs, ihf⟩ := ih (i + 1)
    rw [mapIdx]
    cases he : entryError downstream w with
    | none =>
      rw [processOneWord_of_entryError_none downstream (nowFn i) w he]
      constructor
      · show (toWordData w (nowFn i) ::
            (collectResults (mapIdx (fun j v => processOneWord downstream (nowFn j) v)
              (i + 1) ws)).success).map toInput = _
        rw [List.map_cons, ihs, List.filter_cons, show ((entryError downstream w).isNone) = true by rw [he]; rfl]
        rfl
      · show (collectResults (mapIdx (fun j v => processOneWord downstream (nowFn j) v)
            (i + 1) ws)).failed = _
        rw [ihf, List.filter_cons, show (!(entryError downstream w).isNone) = false by rw [he]; rfl]
        simp only [Bool.false_eq_true, if_false]
    | some e =>
      rw [processOneWord_of_entryError_some downstream (nowFn i) w e he]
      constructor
      · show (collectResults (mapIdx (fun j v => processOneWord downstream (nowFn j) v)
            (i + 1) ws)).success.map toInput = _
        rw [ihs, List.filter_cons, show ((entryError downstream w).isNone) = false by rw [he]; rfl]
        simp only [Bool.false_eq_true, if_false]
      · show (⟨w.word, e⟩ :: (collectResults (mapIdx (fun j v => processOneWord downstream (nowFn j) v)
            (i + 1) ws)).failed : List FailedWord) = _
        rw [ihf, List.filter_cons, show (!(entryError downstream w).isNone) = true by rw [he]; rfl]
        simp only [if_true, List.map_cons, he]
        rfl

/-- C3: in a batch where exactly one entry fails validation and every
other entry passes validation and succeeds downstream, the result reports
every other entry (in order, with its assigned timestamp stripped) in
`success`, and exactly one element in `failed`, which names the invalid
entry's word — the validation failure short-circuits only that entry. -/
theorem addWords_partial_batch (existingWords : List WordData)
    (pre post : List WordInput) (bad : WordInput)
    (downstream : WordInput → Option String) (nowFn : Nat → Int)
    (hbad : (validateWordData bad).isValid = false)
    (hok : ∀ w ∈ pre ++ post, (validateWordData w).isValid = true ∧ downstream w = none) :
    (addWords existingWords (pre ++ bad :: post) downstream nowFn).1.success.map toInput =
      pre ++ post ∧
    (addWords existingWords (pre ++ bad :: post) downstream nowFn).1.failed.length = 1 ∧
    ∀ f ∈ (addWords existingWords (pre ++ bad :: post) downstream nowFn).1.failed,
      f.word = bad.word := by
  have hco : (addWords existingWords (pre ++ bad :: post) downstream nowFn).1 =
      collectResults (runBatches downstream nowFn (pre ++ bad :: post)) := rfl
  rw [hco, runBatches_eq]
  obtain ⟨hs, hf⟩ := collectResults_mapIdx downstream nowFn (pre ++ bad :: post) 0
  have heok : ∀ w ∈ pre ++ post, entryError downstream w = none := by
    intro w hw
    obtain ⟨h1, h2⟩ := hok w hw
    unfold entryError
    rw [if_neg (by rw [h1]; simp), h2]
  have hebad : entryError downstream bad =
      some ((validateWordData bad).error.getD "") := by
    unfold entryError
    rw [if_pos hbad]
  have hfilt : (pre ++ bad :: post).filter
      (fun w => (entryError downstream w).isNone) = pre ++ post := by
    rw [List.filter_append, List.filter_cons]
    rw [show ((entryError downstream bad).isNone) = false by rw [hebad]; rfl]
    simp only [Bool.false_eq_true, if_false]
    rw [List.filter_eq_self.mpr, List.filter_eq_self.mpr]
    · intro w hw
      rw [heok w (List.mem_append_right pre hw)]
      rfl
    · intro w hw
      rw [heok w (List.mem_append_left post hw)]
      rfl
  have hfiltf : (pre ++ bad :: post).filter
      (fun w => !(entryError downstream w).isNone) = [bad] := by
    rw [List.filter_append, List.filter_cons]
    rw [show (!(entryError downstream bad).isNone) = true by rw [hebad]; rfl]
    simp only [if_true]
    rw [List.filter_eq_nil_iff.mpr ?_, List.filter_eq_nil_iff.mpr ?_]
    · rfl
    · intro w hw
      simp [heok w (List.mem_append_right pre hw)]
    · intro w hw
      simp [heok w (List.mem_append_left post hw)]
  refine ⟨by rw [hs, hfilt], ?_, ?_⟩
  · rw [hf, hfiltf]
    rfl
  · intro f hfmem
    rw [hf, hfiltf] at hfmem
    simp only [List.map_cons, List.map_nil, List.mem_singleton] at hfmem
    rw [hfmem]

/-- C3 witness: the spec's example — three entries, the middle one is
`"run3"` and fails validation; the other two succeed. -/
theorem addWords_partial_batch_witness :
    (addWords []
        [(⟨"run", "to move fast", none, none, none⟩ : WordInput),
         (⟨"run3", "invalid word", none, none, none⟩ : WordInput),
         (⟨"walk", "to go slowly", none, none, none⟩ : WordInput)]
        (fun _ => none) (fun i => (i : Int))).1.success.map toInput =
      [(⟨"run", "to move fast", none, none, none⟩ : WordInput),
       (⟨"walk", "to go slowly", none, none, none⟩ : WordInput)] ∧
    (addWords []
        [(⟨"run", "to move fast", none, none, none⟩ : WordInput),
         (⟨"run3", "invalid word", none, none, none⟩ : WordInput),
         (⟨"walk", "to go slowly", none, none, none⟩ : WordInput)]
        (fun _ => none) (fun i => (i : Int))).1.failed.length = 1 ∧
    ∀ f ∈ (addWords []
        [(⟨"run", "to move fast", none, none, none⟩ : WordInput),
         (⟨"run3", "invalid word", none, none, none⟩ : WordInput),
         (⟨"walk", "to go slowly", none, none, none⟩ : WordInput)]
        (fun _ => none) (fun i => (i : Int))).1.failed,
      f.word = (⟨"run3", "invalid word", none, none, none⟩ : WordInput).word :=
  addWords_partial_batch [] [⟨"run", "to move fast", none, none, none⟩]
    [⟨"walk", "to go slowly", none, none, none⟩]
    ⟨"run3", "invalid word", none, none, none⟩ (fun _ => none) (fun i => (i : Int))
    (by decide) (by decide)

theorem writeContents_entry_map (outcomes : List EntryOutcome) (rest : List LedgerEvent) :
    writeContents (outcomes.map LedgerEvent.entryResolved ++ rest) = writeContents rest := by
  unfold writeContents
  rw [List.filterMap_append]
  have h : (outcomes.map LedgerEvent.entryResolved).filterMap
      (fun e => match e with
        | .write c => some c
        | .entryResolved _ => none) = [] := by
    induction outcomes with
    | nil => rfl
    | cons o os ih => simpa using ih
  rw [h, List.nil_append]

theorem addWords_events_eqn (existingWords : List WordData) (words : List WordInput)
    (downstream : WordInput → Option String) (nowFn : Nat → Int) :
    (addWords existingWords words downstream nowFn).2 =
      (runBatches downstream nowFn words).map LedgerEvent.entryResolved ++
        (if (addWords existingWords words downstream nowFn).1.success = [] then []
         else [LedgerEvent.write (deduplicateWordData
           (existingWords ++ (addWords existingWords words downstream nowFn).1.success))]) := by
  have hres : (addWords existingWords words downstream nowFn).1.success =
      (collectResults (runBatches downstream nowFn words)).success := rfl
  show (runBatches downstream nowFn words).map LedgerEvent.entryResolved ++
      (if (collectResults (runBatches downstream nowFn words)).success.length > 0
       then [LedgerEvent.write (deduplicateWordData
         (existingWords ++ (collectResults (runBatches downstream nowFn words)).success))]
       else []) = _
  rw [hres]
  cases hsuc : (collectResults (runBatches downstream nowFn words)).success with
  | nil => simp
  | cons a as => simp

/-- C5: during one `addWords` call the vocabulary file is written only
after every entry of the batch has resolved: the event trace consists of
one resolution event per input entry (in order), followed by at most one
write; that write occurs exactly when some entry succeeded, and its
content is the full deduplicated last-write-wins merge of the
pre-existing ledger with all successful entries — never an incremental
append. -/
theorem addWords_write_after_batch (existingWords : List WordData)
    (words : List WordInput) (downstream : WordInput → Option String)
    (nowFn : Nat → Int) :
    (addWords existingWords words downstream nowFn).2 =
      (runBatches downstream nowFn words).map LedgerEvent.entryResolved ++
        (if (addWords existingWords words downstream nowFn).1.success = [] then []
         else [LedgerEvent.write (deduplicateWordData
           (existingWords ++ (addWords existingWords words downstream nowFn).1.success))]) ∧
    (runBatches downstream nowFn words).length = words.length ∧
    writeContents (addWords existingWords words downstream nowFn).2 =
      (if (addWords existingWords words downstream nowFn).1.success = [] then []
       else [deduplicateWordData
         (existingWords ++ (addWords existingWords words downstream nowFn).1.success)]) := by
  refine ⟨addWords_events_eqn existingWords words downstream nowFn, ?_, ?_⟩
  · rw [runBatches_eq, mapIdx_length]
  · rw [addWords_events_eqn existingWords words downstream nowFn,
      writeContents_entry_map]
    cases hsuc : (addWords existingWords words downstream nowFn).1.success with
    | nil => simp only [if_pos rfl]; rfl
    | cons a as =>
      have h2 : (a :: as) ≠ [] := by simp
      simp only [if_neg h2]
      rfl

/-- C9: when every entry of the batch fails — `results.success` is empty —
`addWords` performs no write to the vocabulary file at all, not even a
rewrite with identical content. -/
theorem addWords_no_write_on_total_failure (existingWords : List WordData)
    (words : List WordInput) (downstream : WordInput → Option String)
    (nowFn : Nat → Int)
    (h : (addWords existingWords words downstream nowFn).1.success = []) :
    writeContents (addWords existingWords words downstream nowFn).2 = [] := by
  rw [addWords_events_eqn existingWords words downstream nowFn,
    writeContents_entry_map, if_pos h]
  rfl

/-- C9 witness: a batch whose only entry fails validation produces no
write event. -/
theorem addWords_no_write_on_total_failure_witness :
    writeContents (addWords
      [(⟨"walk", "to go slowly", none, none, none, 7⟩ : WordData)]
      [(⟨"run3", "invalid word", none, none, none⟩ : WordInput)]
      (fun _ => none) (fun i => (i : Int))).2 = [] :=
  addWords_no_write_on_total_failure
    [(⟨"walk", "to go slowly", none, none, none, 7⟩ : WordData)]
    [(⟨"run3", "invalid word", none, none, none⟩ : WordInput)]
    (fun _ => none) (fun i => (i : Int)) (by decide)

theorem matchesQuery_iff (q : String) (e : WordData) :
    matchesQuery q e = true ↔
      (q.data <:+: (toLowerStr e.word).data ∨
       q.data <:+: (toLowerStr e.definition).data ∨
       ∃ ex, e.exampleText = some ex ∧ ex ≠ "" ∧ q.data <:+: (toLowerStr ex).data) := by
  unfold matchesQuery strIncludes
  cases hex : e.exampleText with
  | none => simp [hex]
  | some ex => simp [hex, or_assoc]

/-- C7 counterexample: the claim says an entry matching the query on
neither word nor definition is not returned by `searchWords`; but the
source also matches on the example field — the entry
`{word:"sprint", definition:"fast", example:"I run daily"}` is returned
for the query `"run"` although neither its word nor its definition
contains `"run"`. -/
theorem searchWords_example_field_counterexample :
    (⟨"sprint", "fast", some "I run daily", none, none, 0⟩ : WordData) ∈
      searchWords [⟨"sprint", "fast", some "I run daily", none, none, 0⟩] "run" ∧
    strIncludes (toLowerStr "sprint") (toLowerStr "run") = false ∧
    strIncludes (toLowerStr "fast") (toLowerStr "run") = false := by
  decide

/-- C7 (amended): `searchWords` returns exactly those entries of the
deduplicated ledger whose word, definition, or (present and non-empty)
example contains the query as a case-insensitive substring; the call is a
pure read of the ledger. -/
theorem searchWords_membership (ledger : List WordData) (query : String) (e : WordData) :
    e ∈ searchWords ledger query ↔
      e ∈ deduplicateWordData ledger ∧
        ((toLowerStr query).data <:+: (toLowerStr e.word).data ∨
         (toLowerStr query).data <:+: (toLowerStr e.definition).data ∨
         ∃ ex, e.exampleText = some ex ∧ ex ≠ "" ∧
           (toLowerStr query).data <:+: (toLowerStr ex).data) := by
  unfold searchWords
  rw [List.mem_filter, matchesQuery_iff]

/-- C7 witness: a word-field match is returned. -/
theorem searchWords_membership_witness :
    (⟨"run", "to move fast", none, none, none, 3⟩ : WordData) ∈
      searchWords [⟨"run", "to move fast", none, none, none, 3⟩] "run" :=
  (searchWords_membership [⟨"run", "to move fast", none, none, none, 3⟩] "run"
    ⟨"run", "to move fast", none, none, none, 3⟩).mpr ⟨by decide, Or.inl (by decide)⟩

/-- C8: in the `search-words` tool, a matched word's relevance score comes
from the first matching rule of the strictly descending scale
100 (exact) > 80 (word starts with query) > 60 (word contains query) >
40 (query is a whole word of the definition) > 20 (definition contains
query); the displayed list pairs each surviving word with exactly this
score, is sorted by score descending, and is truncated to `limit`; on the
spec's example — query `"run"` against `"run"`, `"running"`, and
`"sprint"` (whose definition contains "run") — the ranking is
`run (100), running (80), sprint (40)`. -/
theorem searchWords_relevance_ranking (query : String) (ws : List WordData)
    (limit : Nat) (hasCard : WordData → Bool) :
    List.Pairwise (fun a b : WordData × Nat => b.2 ≤ a.2)
      (scoreAndRank query ws limit hasCard) ∧
    (scoreAndRank query ws limit hasCard).length ≤ limit ∧
    (∀ p ∈ scoreAndRank query ws limit hasCard,
      p.2 = relevanceScore query p.1 ∧ hasCard p.1 = true) ∧
    (∀ w : WordData, toLowerStr w.word = toLowerStr query →
      relevanceScore query w = 100) ∧
    (∀ w : WordData, toLowerStr w.word ≠ toLowerStr query →
      jsStartsWith (toLowerStr w.word) (toLowerStr query) = true →
      relevanceScore query w = 80) ∧
    (∀ w : WordData, toLowerStr w.word ≠ toLowerStr query →
      jsStartsWith (toLowerStr w.word) (toLowerStr query) = false →
      strIncludes (toLowerStr w.word) (toLowerStr query) = true →
      relevanceScore query w = 60) ∧
    (∀ w : WordData, toLowerStr w.word ≠ toLowerStr query →
      jsStartsWith (toLowerStr w.word) (toLowerStr query) = false →
      strIncludes (toLowerStr w.word) (toLowerStr query) = false →
      ((splitOnPred isJsWhitespace [] (toLowerStr w.definition).data).any
        (fun piece => piece == (toLowerStr query).data)) = true →
      relevanceScore query w = 40) ∧
    (∀ w : WordData, toLowerStr w.word ≠ toLowerStr query →
      jsStartsWith (toLowerStr w.word) (toLowerStr query) = false →
      strIncludes (toLowerStr w.word) (toLowerStr query) = false →
      ((splitOnPred isJsWhitespace [] (toLowerStr w.definition).data).any
        (fun piece => piece == (toLowerStr query).data)) = false →
      strIncludes (toLowerStr w.definition) (toLowerStr query) = true →
      relevanceScore query w = 20) ∧
    scoreAndRank "run"
      [⟨"run", "to move fast on foot", none, none, none, 1⟩,
       ⟨"running", "the sport of moving fast", none, none, none, 2⟩,
       ⟨"sprint", "to run at full speed", none, none, none, 3⟩] 20 (fun _ => true) =
      [(⟨"run", "to move fast on foot", none, none, none, 1⟩, 100),
       (⟨"running", "the sport of moving fast", none, none, none, 2⟩, 80),
       (⟨"sprint", "to run at full speed", none, none, none, 3⟩, 40)] := by
  refine ⟨?_, ?_, ?_, ?_, ?_, ?_, ?_, ?_, by decide⟩
  · letI : IsTotal (WordData × Nat) (fun a b => b.2 ≤ a.2) :=
      ⟨fun a b => Nat.le_total b.2 a.2⟩
    letI : IsTrans (WordData × Nat) (fun a b => b.2 ≤ a.2) :=
      ⟨fun _ _ _ hab hbc => le_trans hbc hab⟩
    exact List.Pairwise.sublist (List.take_sublist _ _)
      (List.sorted_insertionSort _ _)
  · exact List.length_take_le _ _
  · intro p hp
    have hp1 : p ∈ List.insertionSort (fun a b : WordData × Nat => b.2 ≤ a.2)
        (ws.filterMap (fun w =>
          if hasCard w then some (w, relevanceScore query w) else none)) :=
      List.Sublist.mem hp (List.take_sublist _ _)
    have hp2 : p ∈ ws.filterMap (fun w =>
        if hasCard w then some (w, relevanceScore query w) else none) :=
      (List.perm_insertionSort _ _).mem_iff.mp hp1
    obtain ⟨w, _, hw⟩ := List.mem_filterMap.mp hp2
    by_cases hc : hasCard w = true
    · rw [if_pos hc] at hw
      have := Option.some.inj hw
      rw [← this]
      exact ⟨rfl, hc⟩
    · rw [if_neg hc] at hw
      exact Option.noConfusion hw
  · intro w h
    have hb : (toLowerStr w.word == toLowerStr query) = true := beq_iff_eq.mpr h
    simp only [relevanceScore, hb, if_true]
  · intro w h1 h2
    have hb : (toLowerStr w.word == toLowerStr query) = false := beq_eq_false_iff_ne.mpr h1
    simp only [relevanceScore, hb, h2, Bool.false_eq_true, if_false, if_true]
  · intro w h1 h2 h3
    have hb : (toLowerStr w.word == toLowerStr query) = false := beq_eq_false_iff_ne.mpr h1
    simp only [relevanceScore, hb, h2, h3, Bool.false_eq_true, if_false, if_true]
  · intro w h1 h2 h3 h4
    have hb : (toLowerStr w.word == toLowerStr query) = false := beq_eq_false_iff_ne.mpr h1
    simp only [relevanceScore, hb, h2, h3, h4, Bool.false_eq_true, if_false, if_true]
  · intro w h1 h2 h3 h4 h5
    have hb : (toLowerStr w.word == toLowerStr query) = false := beq_eq_false_iff_ne.mpr h1
    simp only [relevanceScore, hb, h2, h3, h4, h5, Bool.false_eq_true, if_false, if_true]

/-- C8 witness: the exact-match rule evaluated at the word `"run"`. -/
theorem searchWords_relevance_ranking_witness :
    relevanceScore "run" (⟨"run", "to move fast on foot", none, none, none, 0⟩ : WordData) =
      100 :=
  (searchWords_relevance_ranking "run" [] 0 (fun _ => true)).2.2.2.1
    (⟨"run", "to move fast on foot", none, none, none, 0⟩ : WordData) (by decide)
